import Mathlib

/-!
# EmbedCore verification

A shallow embedding of the EmbedCore repository's core components:

* `embedcore_v3.py` — deterministic embedding generation and the keyed
  additive obfuscation transform (with its SHA-256-derived scalar);
* `embed_logger.py` — the pre-write validation gate;
* `circuit_breaker.py` — the circuit-breaker state machine;
* `embedding_service.py` — the retry-with-exponential-backoff wrapper;
* `cache.py` — the TTL cache;
* `keystore.py` — encrypted per-user key retrieval.

Python floats are modelled as exact rationals (with explicit NaN and
infinity constructors where the code can meet them); wall-clock time is an
explicit rational parameter; stateful objects are records threaded through
the operations.
-/

set_option maxRecDepth 40000

namespace EmbedCore

/-! ## SHA-256 (the `hashlib.sha256` function used for key-derived seeds)

Executable translation of FIPS 180-4 over `Nat` with explicit `% 2^32`
reductions, operating on UTF-8 byte lists.  `obfuscate` and `deobfuscate`
in `embedcore_v3.py` derive their scalar from
`int(hashlib.sha256(user_key.encode()).hexdigest()[:8], 16) % (2**32)`. -/

/-- Right rotation of a 32-bit word. -/
def rotr (n x : ℕ) : ℕ := (x / 2 ^ n + (x % 2 ^ n) * 2 ^ (32 - n)) % 2 ^ 32

/-- Right shift of a 32-bit word. -/
def shr (n x : ℕ) : ℕ := x / 2 ^ n

/-- Bitwise complement within 32 bits. -/
def compl32 (x : ℕ) : ℕ := 0xffffffff ^^^ x

/-- SHA-256 Ch function. -/
def sha2ch (x y z : ℕ) : ℕ := (x &&& y) ^^^ (compl32 x &&& z)

/-- SHA-256 Maj function. -/
def sha2maj (x y z : ℕ) : ℕ := (x &&& y) ^^^ (x &&& z) ^^^ (y &&& z)

/-- SHA-256 lowercase sigma-0. -/
def sigSmall0 (x : ℕ) : ℕ := rotr 7 x ^^^ rotr 18 x ^^^ shr 3 x

/-- SHA-256 lowercase sigma-1. -/
def sigSmall1 (x : ℕ) : ℕ := rotr 17 x ^^^ rotr 19 x ^^^ shr 10 x

/-- SHA-256 uppercase Sigma-0. -/
def sigBig0 (x : ℕ) : ℕ := rotr 2 x ^^^ rotr 13 x ^^^ rotr 22 x

/-- SHA-256 uppercase Sigma-1. -/
def sigBig1 (x : ℕ) : ℕ := rotr 6 x ^^^ rotr 11 x ^^^ rotr 25 x

/-- The 64 SHA-256 round constants (FIPS 180-4 §4.2.2, written in
decimal). -/
def sha2K : List ℕ :=
  [1116352408, 1899447441, 3049323471, 3921009573, 961987163,
   1508970993, 2453635748, 2870763221, 3624381080, 310598401,
   607225278, 1426881987, 1925078388, 2162078206, 2614888103,
   3248222580, 3835390401, 4022224774, 264347078, 604807628,
   770255983, 1249150122, 1555081692, 1996064986, 2554220882,
   2821834349, 2952996808, 3210313671, 3336571891, 3584528711,
   113926993, 338241895, 666307205, 773529912, 1294757372,
   1396182291, 1695183700, 1986661051, 2177026350, 2456956037,
   2730485921, 2820302411, 3259730800, 3345764771, 3516065817,
   3600352804, 4094571909, 275423344, 430227734, 506948616,
   659060556, 883997877, 958139571, 1322822218, 1537002063,
   1747873779, 1955562222, 2024104815, 2227730452, 2361852424,
   2428436474, 2756734187, 3204031479, 3329325298]

/-- The SHA-256 initial hash value (FIPS 180-4 §5.3.3, in decimal). -/
def sha2H0 : List ℕ :=
  [1779033703, 3144134277, 1013904242, 2773480762,
   1359893119, 2600822924, 528734635, 1541459225]

/-- Extend a 16-word message block, appending `k` further schedule words. -/
def extendSchedule : ℕ → List ℕ → List ℕ
  | 0, w => w
  | k + 1, w =>
    let n := w.length
    let next := (sigSmall1 (w.getD (n - 2) 0) + w.getD (n - 7) 0 +
                 sigSmall0 (w.getD (n - 15) 0) + w.getD (n - 16) 0) % 2 ^ 32
    extendSchedule k (w ++ [next])

/-- One SHA-256 compression round on the working state `[a,b,c,d,e,f,g,h]`. -/
def sha2Round (kw : ℕ × ℕ) (st : List ℕ) : List ℕ :=
  match st with
  | [a, b, c, d, e, f, g, h] =>
    let t1 := (h + sigBig1 e + sha2ch e f g + kw.1 + kw.2) % 2 ^ 32
    let t2 := (sigBig0 a + sha2maj a b c) % 2 ^ 32
    [(t1 + t2) % 2 ^ 32, a, b, c, (d + t1) % 2 ^ 32, e, f, g]
  | other => other

/-- Process one 16-word block against the running hash value. -/
def processBlock (h block : List ℕ) : List ℕ :=
  let w := extendSchedule 48 block
  let st := (sha2K.zip w).foldl (fun s kw => sha2Round kw s) h
  (h.zip st).map (fun p => (p.1 + p.2) % 2 ^ 32)

/-- Fold all 16-word blocks of a padded message into the hash state
(fuel-indexed; the fuel is always the word-list length at call sites). -/
def processBlocks : ℕ → List ℕ → List ℕ → List ℕ
  | 0, h, _ => h
  | fuel + 1, h, ws =>
    match ws with
    | [] => h
    | _ => processBlocks fuel (processBlock h (ws.take 16)) (ws.drop 16)

/-- Big-endian 8-byte encoding of the 64-bit message bit-length. -/
def be64 (n : ℕ) : List ℕ :=
  (List.range 8).map (fun i => n / 2 ^ (8 * (7 - i)) % 256)

/-- SHA-256 message padding: `0x80`, zeros to 56 mod 64, then the bit length. -/
def padMessage (msg : List ℕ) : List ℕ :=
  let L := msg.length
  let zeros := (120 - (L + 1) % 64) % 64
  msg ++ [0x80] ++ List.replicate zeros 0 ++ be64 (8 * L)

/-- Group a byte list into big-endian 32-bit words. -/
def bytesToWords : List ℕ → List ℕ
  | b0 :: b1 :: b2 :: b3 :: rest =>
    (b0 * 2 ^ 24 + b1 * 2 ^ 16 + b2 * 2 ^ 8 + b3) :: bytesToWords rest
  | _ => []

/-- SHA-256 of a byte list, as the list of 8 hash words. -/
def sha256Words (msg : List ℕ) : List ℕ :=
  let ws := bytesToWords (padMessage msg)
  processBlocks ws.length sha2H0 ws

/-- UTF-8 encoding of one character (RFC 3629), as Python's `str.encode()`. -/
def utf8Char (c : Char) : List ℕ :=
  let n := c.toNat
  if n < 0x80 then [n]
  else if n < 0x800 then [0xc0 + n / 0x40, 0x80 + n % 0x40]
  else if n < 0x10000 then
    [0xe0 + n / 0x1000, 0x80 + n / 0x40 % 0x40, 0x80 + n % 0x40]
  else
    [0xf0 + n / 0x40000, 0x80 + n / 0x1000 % 0x40,
     0x80 + n / 0x40 % 0x40, 0x80 + n % 0x40]

/-- UTF-8 encoding of a string, as Python's `str.encode()`. -/
def encodeUTF8 (s : String) : List ℕ :=
  s.data.foldr (fun c acc => utf8Char c ++ acc) []

/-- One lowercase hexadecimal digit. -/
def hexDigit (n : ℕ) : Char :=
  if n < 10 then Char.ofNat (48 + n) else Char.ofNat (87 + n)

/-- Eight-hex-digit rendering of one 32-bit word. -/
def wordHex (w : ℕ) : List Char :=
  (List.range 8).map (fun i => hexDigit (w / 16 ^ (7 - i) % 16))

/-- The hexdigest character string of a SHA-256 hash value. -/
def hexdigest (hs : List ℕ) : List Char :=
  hs.foldr (fun w acc => wordHex w ++ acc) []

/-- Value of a lowercase hexadecimal digit character (as `int(s, 16)`). -/
def hexCharVal (c : Char) : ℕ :=
  if 97 ≤ c.toNat then c.toNat - 87 else c.toNat - 48

/-- Python `int(s, 16)` on a lowercase hexadecimal character list. -/
def hexToNat (cs : List Char) : ℕ :=
  cs.foldl (fun acc c => acc * 16 + hexCharVal c) 0

/-- `hashlib.sha256(s.encode()).hexdigest()` as a character list. -/
def sha256hex (s : String) : List Char :=
  hexdigest (sha256Words (encodeUTF8 s))

/-- The 32-bit seed `embedcore_v3.obfuscate` derives from a user key:
`int(key_hash[:8], 16) % (2**32)`. -/
def keySeed (user_key : String) : ℕ :=
  hexToNat ((sha256hex user_key).take 8) % 2 ^ 32

/-- The key-derived scalar added by `obfuscate` and subtracted by
`deobfuscate`: `(seed % 1000) / 10000.0 - 0.05`. -/
def transformVal (user_key : String) : ℚ :=
  ((keySeed user_key % 1000 : ℕ) : ℚ) / 10000 - 5 / 100

/-! ## Python value model

Vectors reaching `obfuscate` / `deobfuscate` / `_validate_embedding` are
Python lists whose elements the code checks with `isinstance(val, (int,
float))`, `math.isnan` and `math.isinf`.  Floats are exact rationals plus
NaN and the two infinities. -/

/-- A Python float: a finite value (modelled exactly as a rational), NaN,
or a signed infinity. -/
inductive PyFloat : Type
  | finite (q : ℚ)
  | nan
  | inf
  | ninf
deriving DecidableEq, Repr

/-- A Python value as seen by the argument checks of the embedded
functions: an int, a float, a text string, or `None` (standing for any
non-numeric, non-string object). -/
inductive PyVal : Type
  | int (n : ℤ)
  | float (x : PyFloat)
  | str (s : String)
  | noneV
deriving DecidableEq, Repr, Inhabited

/-- The error classes the embedded functions raise. -/
inductive PyErr : Type
  | typeError
  | valueError
deriving DecidableEq, Repr

/-- `isinstance(val, (int, float))`. -/
def isNumeric : PyVal → Bool
  | .int _ => true
  | .float _ => true
  | _ => false

/-- `math.isnan(val)` (false on ints and finite floats). -/
def isNan : PyVal → Bool
  | .float .nan => true
  | _ => false

/-- `math.isinf(val)` (false on ints and finite floats). -/
def isInf : PyVal → Bool
  | .float .inf => true
  | .float .ninf => true
  | _ => false

/-- A numeric value that is finite (an int, or a finite float). -/
def isFiniteNum : PyVal → Bool
  | .int _ => true
  | .float (.finite _) => true
  | _ => false

/-- The exact numeric value of a finite numeric `PyVal` (0 elsewhere). -/
def numVal : PyVal → ℚ
  | .int n => (n : ℚ)
  | .float (.finite q) => q
  | _ => 0

/-- Python `abs(val) < c` for a finite positive bound `c`: false on NaN
(every NaN comparison is false) and on the infinities. -/
def absLt (v : PyVal) (c : ℚ) : Bool
  := match v with
  | .int n => decide (|(n : ℚ)| < c)
  | .float (.finite q) => decide (|q| < c)
  | _ => false

/-- Addition of a finite rational scalar to a Python float. -/
def addFloat : PyFloat → ℚ → PyFloat
  | .finite q, t => .finite (q + t)
  | .nan, _ => .nan
  | .inf, _ => .inf
  | .ninf, _ => .ninf

/-- Subtraction of a finite rational scalar from a Python float. -/
def subFloat : PyFloat → ℚ → PyFloat
  | .finite q, t => .finite (q - t)
  | .nan, _ => .nan
  | .inf, _ => .inf
  | .ninf, _ => .ninf

/-- `val + transform_val` on a numeric `PyVal` (int + float promotes to
float, as in Python); non-numeric values never reach this point. -/
def addVal (v : PyVal) (t : ℚ) : PyVal :=
  match v with
  | .int n => .float (.finite ((n : ℚ) + t))
  | .float x => .float (addFloat x t)
  | other => other

/-- `val - transform_val` on a numeric `PyVal`. -/
def subVal (v : PyVal) (t : ℚ) : PyVal :=
  match v with
  | .int n => .float (.finite ((n : ℚ) - t))
  | .float x => .float (subFloat x t)
  | other => other

/-! ## `embedcore_v3.obfuscate` and `embedcore_v3.deobfuscate`

Faithful to the check order of the source: the `isinstance(embedding,
list)` check is discharged by the argument type; then the key must be a
string (`TypeError`), the list non-empty (`ValueError`), and every element
numeric (`TypeError`); then the key-derived scalar is added to (resp.
subtracted from) every component. -/

/-- `embedcore_v3.obfuscate(embedding, user_key)`. -/
def obfuscate (embedding : List PyVal) (user_key : PyVal) :
    Except PyErr (List PyVal) :=
  match user_key with
  | .str k =>
    if embedding.length = 0 then .error .valueError
    else if embedding.all isNumeric then
      let t := transformVal k
      .ok (embedding.map (fun v => addVal v t))
    else .error .typeError
  | _ => .error .typeError

/-- `embedcore_v3.deobfuscate(obf_embedding, user_key)`. -/
def deobfuscate (obf_embedding : List PyVal) (user_key : PyVal) :
    Except PyErr (List PyVal) :=
  match user_key with
  | .str k =>
    if obf_embedding.length = 0 then .error .valueError
    else if obf_embedding.all isNumeric then
      let t := transformVal k
      .ok (obf_embedding.map (fun v => subVal v t))
    else .error .typeError
  | _ => .error .typeError

/-! ## `embedcore_v3.generate_embedding`

The source seeds Python's global Mersenne-Twister generator with
`hash(message_text) % (2**32)` and draws 384 values via
`random.uniform(-1.0, 1.0)`, then normalizes.  The process hash function
(`hash`, randomized per process), the generator internals (`random.seed`,
`random.random`) and the float square root (`** 0.5`) are external to the
repository, so they are parameters of the model; the structure of the
function — reseeding from the text alone before drawing — is translated
exactly. -/

/-- The interface of Python's `random` module generator: `seed` builds a
generator state from a nonnegative integer, `rand` is `random.random()`. -/
structure PyRandom (σ : Type) : Type where
  seedFn : ℕ → σ
  rand : σ → ℚ × σ

/-- `random.uniform(-1.0, 1.0)`, which CPython computes as
`a + (b - a) * random()`. -/
def uniformPM1 {σ : Type} (R : PyRandom σ) (st : σ) : ℚ × σ :=
  let p := R.rand st
  ((-1 : ℚ) + (1 - (-1 : ℚ)) * p.1, p.2)

/-- Draw `n` successive `uniform(-1.0, 1.0)` values. -/
def drawUniforms {σ : Type} (R : PyRandom σ) : ℕ → σ → List ℚ × σ
  | 0, st => ([], st)
  | n + 1, st =>
    let p := uniformPM1 R st
    let rest := drawUniforms R n p.2
    (p.1 :: rest.1, rest.2)

/-- `embedcore_v3.generate_embedding(message_text)`: the incoming
generator state is the global `random` state at call time; the result is
the embedding together with the generator state left behind.  `pyHash`
models the process's `hash`, `sq` models `** 0.5`. -/
def generate_embedding {σ : Type} (R : PyRandom σ) (pyHash : String → ℤ)
    (sq : ℚ → ℚ) (message_text : String) (_st : σ) : List ℚ × σ :=
  let seed := (pyHash message_text % (2 ^ 32 : ℤ)).toNat
  let st0 := R.seedFn seed
  let p := drawUniforms R 384 st0
  let embedding := p.1
  let magnitude := sq ((embedding.map (fun x => x * x)).sum)
  let result :=
    if magnitude > 0 then embedding.map (fun x => x / magnitude)
    else 1 :: List.replicate 383 0
  (result, p.2)

/-- View a rational vector as a Python list of finite floats (the form in
which `generate_embedding`'s output reaches `obfuscate`). -/
def floatVals (l : List ℚ) : List PyVal :=
  l.map (fun q => .float (.finite q))

/-- A concrete trivial generator instance, used to evaluate the model at
explicit inputs. -/
def cexRandom : PyRandom Unit :=
  { seedFn := fun _ => (), rand := fun _ => (1 / 2, ()) }

/-- A concrete stand-in for the process hash function. -/
def cexHash : String → ℤ := fun _ => 0

/-- A concrete stand-in for the float square root. -/
def cexSq : ℚ → ℚ := fun q => q

/-! ## `embed_logger._validate_embedding` and the `save_embedding` gate

The validation gate is a chain of checks, each returning `False` on
failure: list type (discharged by the argument type), non-empty, length
384, per-element numeric / not-NaN / not-infinite, not all-zero
(`abs(val) < 1e-10` for every element), not uniform
(`abs(val - first_val) < 1e-10` for every element), and population
standard deviation at least `1e-6`.  The source compares
`variance ** 0.5 < 1e-6`; both sides being nonnegative, the model
compares `variance < (1e-6)^2` to stay within exact rationals. -/

/-- `mean_val = sum(embedding_data) / len(embedding_data)`. -/
def listMean (l : List ℚ) : ℚ := l.sum / (l.length : ℚ)

/-- `variance = sum((val - mean_val) ** 2 for val in embedding_data) /
len(embedding_data)` (population variance). -/
def listVariance (l : List ℚ) : ℚ :=
  ((l.map (fun q => (q - listMean l) ^ 2)).sum) / (l.length : ℚ)

/-- `embed_logger._validate_embedding(embedding_data, ...)`. -/
def validate_embedding (e : List PyVal) : Bool :=
  if e.length = 0 then false
  else if e.length ≠ 384 then false
  else if ¬ e.all isNumeric then false
  else if e.any isNan then false
  else if e.any isInf then false
  else if e.all (fun v => absLt v (1 / 10 ^ 10)) then false
  else if e.all (fun v =>
      decide (|numVal v - numVal e.headI| < 1 / 10 ^ 10)) then false
  else if listVariance (e.map numVal) < (1 / 10 ^ 6 : ℚ) ^ 2 then false
  else true

/-- `embed_logger.save_embedding(user_id, session_id, embedding_data,
platform, db_path)`: argument checks raise; the validation gate returns
`False` without raising; the database write itself is external I/O,
modelled as succeeding. -/
def save_embedding (user_id session_id : String) (embedding_data : List PyVal)
    (platform : String) : Except PyErr Bool :=
  if user_id = "" then .error .valueError
  else if session_id = "" then .error .valueError
  else if platform = "" then .error .valueError
  else if ¬ embedding_data.all isNumeric then .error .typeError
  else if ¬ validate_embedding embedding_data then .ok false
  else .ok true

/-! ## `circuit_breaker.CircuitBreaker`

Wall-clock time (`time.time()`) is made an explicit rational argument of
the operations that read it.  A call is described by the time at which it
is made and by whether the wrapped function would succeed; the result
distinguishes the rejection path (wrapped function never invoked) from a
returned value and a re-raised failure. -/

/-- `circuit_breaker.CircuitBreakerState`. -/
inductive CBState : Type
  | closed
  | opened
  | halfOpen
deriving DecidableEq, Repr

/-- The mutable fields of `circuit_breaker.CircuitBreaker` together with
its configuration. -/
structure CircuitBreaker : Type where
  failure_threshold : ℕ
  recovery_timeout : ℚ
  state : CBState
  failure_count : ℕ
  last_failure_time : Option ℚ
  success_count : ℕ
deriving DecidableEq, Repr

/-- `CircuitBreaker.__init__(failure_threshold, recovery_timeout)`. -/
def CircuitBreaker.mkNew (failure_threshold : ℕ) (recovery_timeout : ℚ) :
    CircuitBreaker :=
  { failure_threshold := failure_threshold
    recovery_timeout := recovery_timeout
    state := .closed
    failure_count := 0
    last_failure_time := none
    success_count := 0 }

/-- `CircuitBreaker._can_attempt_reset(self)` at time `now`. -/
def CircuitBreaker.can_attempt_reset (cb : CircuitBreaker) (now : ℚ) : Bool :=
  match cb.last_failure_time with
  | none => false
  | some t => decide (now - t ≥ cb.recovery_timeout)

/-- `CircuitBreaker._reset(self)`. -/
def CircuitBreaker.reset (cb : CircuitBreaker) : CircuitBreaker :=
  { cb with state := .closed, failure_count := 0, success_count := 0 }

/-- `CircuitBreaker._record_success(self)`. -/
def CircuitBreaker.record_success (cb : CircuitBreaker) : CircuitBreaker :=
  if cb.state = .halfOpen then
    let cb' := { cb with success_count := cb.success_count + 1 }
    if cb'.success_count ≥ 2 then cb'.reset else cb'
  else cb

/-- `CircuitBreaker._record_failure(self)` at time `now`. -/
def CircuitBreaker.record_failure (cb : CircuitBreaker) (now : ℚ) :
    CircuitBreaker :=
  let cb' := { cb with failure_count := cb.failure_count + 1,
                       last_failure_time := some now }
  if cb'.state = .halfOpen then { cb' with state := .opened }
  else if cb'.failure_count ≥ cb'.failure_threshold then
    { cb' with state := .opened }
  else cb'

/-- The outcome of one `CircuitBreaker.call`: rejected with
`CircuitBreakerOpenException` (wrapped function never invoked), returned
normally, or re-raised the wrapped function's failure. -/
inductive CallResult : Type
  | rejectedOpen
  | returned
  | raised
deriving DecidableEq, Repr

/-- The `try` body of `CircuitBreaker.call`: invoke the wrapped function
(`funcOk` tells whether it succeeds) and record the outcome. -/
def CircuitBreaker.attempt (cb : CircuitBreaker) (now : ℚ) (funcOk : Bool) :
    CallResult × CircuitBreaker :=
  if funcOk then (.returned, cb.record_success)
  else (.raised, cb.record_failure now)

/-- `CircuitBreaker.call(self, func, ...)` at time `now`. -/
def CircuitBreaker.call (cb : CircuitBreaker) (now : ℚ) (funcOk : Bool) :
    CallResult × CircuitBreaker :=
  if cb.state = .opened then
    if cb.can_attempt_reset now then
      ({ cb with state := .halfOpen } : CircuitBreaker).attempt now funcOk
    else (.rejectedOpen, cb)
  else cb.attempt now funcOk

/-- Run a sequence of calls, each given by its time and by whether the
wrapped function would succeed. -/
def CircuitBreaker.runCalls (cb : CircuitBreaker) :
    List (ℚ × Bool) → CircuitBreaker
  | [] => cb
  | (t, b) :: rest => ((cb.call t b).2).runCalls rest

/-- The number of failing calls in a call sequence. -/
def countFailures (L : List (ℚ × Bool)) : ℕ :=
  (L.filter (fun p => p.2 = false)).length

/-! ## `embedding_service.EmbeddingService._retry_with_backoff`

One attempt of the wrapped call either returns a value, raises
`CircuitBreakerOpenException`, or raises some other exception; the
attempts are described by a function from the attempt index.  The model
returns the overall outcome, the number of attempts actually made, and
the list of back-off sleeps performed (in seconds), in order. -/

/-- The outcome of invoking the wrapped call once. -/
inductive Attempt (α ε : Type) : Type
  | ok (v : α)
  | circuitOpen
  | fail (e : ε)

/-- The outcome of the whole retry loop: a value, a propagated
`CircuitBreakerOpenException`, the last observed exception, or the
generic "All retry attempts failed" error (reachable only with
`max_retries = 0`). -/
inductive RetryResult (α ε : Type) : Type
  | ok (v : α)
  | circuitOpen
  | failed (e : ε)
  | exhausted
deriving DecidableEq, Repr

/-- The body of `_retry_with_backoff`'s `for attempt in
range(self.max_retries)` loop: `r` attempts remain, the next attempt has
index `i`, and `last` is `last_exception`.  Returns the outcome, the
number of attempts made, and the sleeps performed. -/
def retryLoop {α ε : Type} (maxR : ℕ) (base : ℚ) (att : ℕ → Attempt α ε) :
    ℕ → ℕ → Option ε → RetryResult α ε × ℕ × List ℚ
  | 0, _, last =>
    (match last with
     | some e => .failed e
     | none => .exhausted, 0, [])
  | r + 1, i, _last =>
    match att i with
    | .ok v => (.ok v, 1, [])
    | .circuitOpen => (.circuitOpen, 1, [])
    | .fail e =>
      let rest := retryLoop maxR base att r (i + 1) (some e)
      (rest.1, rest.2.1 + 1,
       (if i < maxR - 1 then [base * 2 ^ i] else []) ++ rest.2.2)

/-- `EmbeddingService._retry_with_backoff(self, func)` with
`self.max_retries = maxR` and `self.retry_delay = base`. -/
def retry_with_backoff {α ε : Type} (maxR : ℕ) (base : ℚ)
    (att : ℕ → Attempt α ε) : RetryResult α ε × ℕ × List ℚ :=
  retryLoop maxR base att maxR 0 none

/-! ## `cache.CacheManager`

The backing dict maps `_make_key(key)` — an `hashlib.md5` hexdigest,
external to the repository and taken as a parameter `mkKey` — to a pair
of value and expiry timestamp.  The dict is an association list whose
keys are unique (a Python dict cannot hold duplicate keys). -/

/-- One `self._cache` entry: hashed key, value, expiry timestamp. -/
structure CacheEntry (α : Type) : Type where
  key : String
  value : α
  expiry : ℚ

/-- `cache.CacheManager`: the entry dict and the `enabled` flag. -/
structure CacheManager (α : Type) : Type where
  cache : List (CacheEntry α)
  enabled : Bool

/-- Dict lookup on the hashed key. -/
def lookupEntry {α : Type} : List (CacheEntry α) → String → Option (α × ℚ)
  | [], _ => none
  | e :: rest, k =>
    if e.key = k then some (e.value, e.expiry) else lookupEntry rest k

/-- `del self._cache[k]`: remove the binding for `k`. -/
def removeEntry {α : Type} (l : List (CacheEntry α)) (k : String) :
    List (CacheEntry α) :=
  match l with
  | [] => []
  | e :: rest => if e.key = k then rest else e :: removeEntry rest k

/-- `self._cache[k] = (value, expiry)`: overwrite or insert. -/
def setEntry {α : Type} (l : List (CacheEntry α)) (k : String) (v : α)
    (expiry : ℚ) : List (CacheEntry α) :=
  match l with
  | [] => [⟨k, v, expiry⟩]
  | e :: rest =>
    if e.key = k then ⟨k, v, expiry⟩ :: rest
    else e :: setEntry rest k v expiry

/-- `CacheManager.get(self, key)` at time `now`, with the dict-key hash
`mkKey` (`hashlib.md5(key.encode()).hexdigest()`): returns the value if
present and unexpired; evicts an expired entry as a side effect. -/
def CacheManager.get {α : Type} (mkKey : String → String)
    (m : CacheManager α) (now : ℚ) (key : String) :
    Option α × CacheManager α :=
  if ¬ m.enabled then (none, m)
  else
    let ck := mkKey key
    match lookupEntry m.cache ck with
    | some (v, expiry) =>
      if now < expiry then (some v, m)
      else (none, { m with cache := removeEntry m.cache ck })
    | none => (none, m)

/-- `CacheManager.set(self, key, value, ttl)` at time `now`. -/
def CacheManager.set {α : Type} (mkKey : String → String)
    (m : CacheManager α) (now : ℚ) (key : String) (value : α) (ttl : ℚ) :
    Bool × CacheManager α :=
  if ¬ m.enabled then (false, m)
  else (true, { m with cache := setEntry m.cache (mkKey key) value (now + ttl) })

/-- `CacheManager.stats(self)` at time `now`:
`(total_entries, valid_entries, expired_entries)`. -/
def CacheManager.stats {α : Type} (m : CacheManager α) (now : ℚ) :
    ℕ × ℕ × ℕ :=
  let total := m.cache.length
  let valid := (m.cache.filter (fun e => now < e.expiry)).length
  (total, valid, total - valid)

/-! ## `keystore.KeyStore.get_key`

The `user_keys` table is a map from `user_id` to the stored encrypted
blob; `Fernet.decrypt` under the current master key is an external
library call, taken as a parameter that either yields the plaintext key
bytes or fails (as it does on a master-key mismatch). -/

/-- The persistent state `KeyStore.get_key` reads: the `user_keys` table. -/
structure KeyStore : Type where
  user_keys : String → Option (List ℕ)

/-- `KeyStore.get_key(self, user_id)`: raises `ValueError` on an empty
`user_id`; returns `None` when no record exists; returns `None` (rather
than raising) when `fernetDecrypt` fails on the stored blob. -/
def KeyStore.get_key (fernetDecrypt : List ℕ → Option (List ℕ))
    (ks : KeyStore) (user_id : String) : Except PyErr (Option (List ℕ)) :=
  if user_id = "" then .error .valueError
  else
    match ks.user_keys user_id with
    | none => .ok none
    | some blob =>
      match fernetDecrypt blob with
      | some user_key => .ok (some user_key)
      | none => .ok none

/-! ## Concrete instances used to evaluate the theorems at explicit
inputs -/

/-- A 384-component vector of pairwise distinct finite values whose
variance is large: one dominant component 3840, then 383 small values
`(i+1)/1000`. -/
def vecSpread : List PyVal :=
  .float (.finite 3840) ::
    (List.range 383).map (fun i : ℕ => .float (.finite (((i : ℚ) + 1) / 1000)))

/-- A fresh breaker configured as the repository's
`pinecone_circuit_breaker` (`failure_threshold=3, recovery_timeout=30`). -/
def cbFresh : CircuitBreaker := CircuitBreaker.mkNew 3 30

/-- A breaker in the OPEN state with a recorded failure time. -/
def cbOpenEx : CircuitBreaker :=
  { failure_threshold := 3, recovery_timeout := 30, state := .opened,
    failure_count := 3, last_failure_time := some 2, success_count := 0 }

/-- A breaker in the HALF_OPEN state. -/
def cbHalfEx : CircuitBreaker :=
  { failure_threshold := 3, recovery_timeout := 30, state := .halfOpen,
    failure_count := 3, last_failure_time := some 2, success_count := 0 }

/-- Attempts: one failure, then a success. -/
def attOkAt1 : ℕ → Attempt ℕ ℕ :=
  fun j => if j = 0 then .fail 5 else .ok 42

/-- Attempts: one failure, then `CircuitBreakerOpenException`. -/
def attCOAt1 : ℕ → Attempt ℕ ℕ :=
  fun j => if j = 0 then .fail 7 else .circuitOpen

/-- Attempts: every attempt fails, with distinguishable exceptions. -/
def attAllFail : ℕ → Attempt ℕ ℕ := fun j => .fail j

/-- An empty, enabled cache. -/
def emptyCache : CacheManager ℕ := { cache := [], enabled := true }

/-- A key store holding one encrypted record, for user `u1`. -/
def ksEx : KeyStore :=
  { user_keys := fun u => if u = "u1" then some [1, 2] else none }

/-- A decryption that always fails (master-key mismatch). -/
def decFail : List ℕ → Option (List ℕ) := fun _ => none

/-! # Theorems -/

/-! Sanity checks of the SHA-256 translation against the FIPS 180-4 /
NIST example digests, and of the key-derived seed. -/

example : sha256hex "abc" =
    "ba7816bf8f01cfea414140de5dae2223b00361a396177a9cb410ff61f20015ad".data := by
  decide

example : sha256hex "" =
    "e3b0c44298fc1c149afbf4c8996fb92427ae41e4649b934ca495991b7852b855".data := by
  decide

example : keySeed "key" = 745595179 := by decide

/-! ## Helper lemmas on the Python value model -/

theorem isNumeric_of_isFiniteNum {x : PyVal} (h : isFiniteNum x = true) :
    isNumeric x = true := by
  cases x with
  | int n => rfl
  | float f => rfl
  | str s => exact absurd h (by simp [isFiniteNum])
  | noneV => exact absurd h (by simp [isFiniteNum])

theorem isNumeric_addVal {x : PyVal} (t : ℚ) (h : isFiniteNum x = true) :
    isNumeric (addVal x t) = true := by
  cases x with
  | int n => rfl
  | float f => cases f <;> rfl
  | str s => exact absurd h (by simp [isFiniteNum])
  | noneV => exact absurd h (by simp [isFiniteNum])

theorem numVal_subVal_addVal {x : PyVal} (t : ℚ) (h : isFiniteNum x = true) :
    numVal (subVal (addVal x t) t) = numVal x := by
  cases x with
  | int n =>
    simp [addVal, subVal, addFloat, subFloat, numVal]
  | float f =>
    cases f with
    | finite q => simp [addVal, subVal, addFloat, subFloat, numVal]
    | nan => exact absurd h (by simp [isFiniteNum])
    | inf => exact absurd h (by simp [isFiniteNum])
    | ninf => exact absurd h (by simp [isFiniteNum])
  | str s => exact absurd h (by simp [isFiniteNum])
  | noneV => exact absurd h (by simp [isFiniteNum])

/-! ## C1 — obfuscate/deobfuscate round trip -/

/-- C1: for every finite vector `v`, every key `k` and every index `i`,
`deobfuscate(obfuscate(v, k), k)[i]` equals `v[i]` within `1e-10` absolute
tolerance (the model is exact, so the difference is zero): `obfuscate`
adds the single key-derived scalar `transformVal k` to each component and
`deobfuscate` subtracts the same scalar. -/
theorem deobfuscate_obfuscate_roundtrip (v : List PyVal) (k : String)
    (hne : v ≠ []) (hfin : v.all isFiniteNum = true) :
    ∃ w u, obfuscate v (.str k) = .ok w ∧ deobfuscate w (.str k) = .ok u ∧
      u.length = v.length ∧
      ∀ i, i < v.length →
        |numVal (u.getD i .noneV) - numVal (v.getD i .noneV)| < 1 / 10 ^ 10 := by
  have hfin' : ∀ x ∈ v, isFiniteNum x = true := by
    simpa [List.all_eq_true] using hfin
  have hnum : v.all isNumeric = true := by
    simp only [List.all_eq_true]
    exact fun x hx => isNumeric_of_isFiniteNum (hfin' x hx)
  set t := transformVal k with ht
  refine ⟨v.map (fun x => addVal x t),
    (v.map (fun x => addVal x t)).map (fun x => subVal x t), ?_, ?_, ?_, ?_⟩
  · simp [obfuscate, hnum, List.length_eq_zero, hne, ht]
  · have hwnum : (v.map (fun x => addVal x t)).all isNumeric = true := by
      simp only [List.all_map, List.all_eq_true, Function.comp]
      exact fun x hx => isNumeric_addVal t (hfin' x hx)
    have hwne : v.map (fun x => addVal x t) ≠ [] := by
      simpa [List.map_eq_nil_iff] using hne
    simp [deobfuscate, hwnum, List.length_eq_zero, hwne, hne, ht]
  · simp
  · intro i hi
    have hi' : i < ((v.map (fun x => addVal x t)).map
        (fun x => subVal x t)).length := by simpa using hi
    have h1 : ((v.map (fun x => addVal x t)).map
        (fun x => subVal x t)).getD i .noneV =
        subVal (addVal (v.getD i .noneV) t) t := by
      rw [List.map_map, List.getD_eq_getElem _ _ (by simpa using hi),
        List.getD_eq_getElem _ _ hi, List.getElem_map]
      rfl
    have hx : v.getD i .noneV ∈ v := by
      rw [List.getD_eq_getElem _ _ hi]
      exact List.getElem_mem _
    rw [h1, numVal_subVal_addVal t (hfin' _ hx), sub_self, abs_zero]
    norm_num

/-- Witness for C1 at the concrete vector `[0.5, 3]` and key `"key"`. -/
theorem deobfuscate_obfuscate_roundtrip_witness :
    ([PyVal.float (.finite (1 / 2)), PyVal.int 3] ≠ ([] : List PyVal)) ∧
    ([PyVal.float (.finite (1 / 2)), PyVal.int 3].all isFiniteNum = true) ∧
    (∃ w u,
      obfuscate [PyVal.float (.finite (1 / 2)), PyVal.int 3] (.str "key") = .ok w ∧
      deobfuscate w (.str "key") = .ok u ∧
      u.length = [PyVal.float (.finite (1 / 2)), PyVal.int 3].length ∧
      ∀ i, i < [PyVal.float (.finite (1 / 2)), PyVal.int 3].length →
        |numVal (u.getD i .noneV) -
          numVal ([PyVal.float (.finite (1 / 2)), PyVal.int 3].getD i .noneV)| <
          1 / 10 ^ 10) :=
  ⟨by decide, by decide,
    deobfuscate_obfuscate_roundtrip _ "key" (by decide) (by decide)⟩

/-! ## C6 — obfuscate argument validation -/

/-- C6 counterexample: a vector containing non-finite elements (NaN and
infinity) is accepted by `obfuscate` — the value is returned, no error is
raised — contradicting the claim that non-finite elements fail with an
`InvalidArgument`-class error. -/
theorem obfuscate_accepts_nonfinite :
    obfuscate [PyVal.float .nan, PyVal.float .inf] (.str "k") =
      .ok [PyVal.float .nan, PyVal.float .inf] := by
  rfl

/-- C6 as amended: `obfuscate` fails with an error whenever its vector is
empty (`ValueError`), contains a non-numeric element (`TypeError`), or is
given a non-string key (`TypeError`); non-finite float elements are NOT
rejected. -/
theorem obfuscate_invalid_arguments (v : List PyVal) (k : PyVal)
    (h : v = [] ∨ (∃ x ∈ v, isNumeric x = false) ∨ ∀ s, k ≠ .str s) :
    ∃ e, obfuscate v k = .error e := by
  cases k with
  | str s =>
    rcases h with h | h | h
    · exact ⟨.valueError, by simp [obfuscate, h]⟩
    · by_cases hlen : v.length = 0
      · exact ⟨.valueError, by simp [obfuscate, hlen]⟩
      · refine ⟨.typeError, ?_⟩
        obtain ⟨x, hx, hxn⟩ := h
        have hall : v.all isNumeric = false := by
          simp only [List.all_eq_false]
          exact ⟨x, hx, by simp [hxn]⟩
        simp [obfuscate, hlen, hall]
    · exact absurd rfl (h s)
  | int n => exact ⟨.typeError, rfl⟩
  | float f => exact ⟨.typeError, rfl⟩
  | noneV => exact ⟨.typeError, rfl⟩

/-- Witness for the amended C6 at the empty vector. -/
theorem obfuscate_invalid_arguments_witness :
    ∃ e, obfuscate [] (.str "a") = .error e :=
  obfuscate_invalid_arguments [] (.str "a") (Or.inl rfl)

/-! ## C3 — generate_embedding determinism -/

theorem drawUniforms_length {σ : Type} (R : PyRandom σ) (n : ℕ) (st : σ) :
    (drawUniforms R n st).1.length = n := by
  induction n generalizing st with
  | zero => rfl
  | succ n ih => simp [drawUniforms, ih]

theorem generate_embedding_length {σ : Type} (R : PyRandom σ)
    (pyHash : String → ℤ) (sq : ℚ → ℚ) (t : String) (s : σ) :
    (generate_embedding R pyHash sq t s).1.length = 384 := by
  unfold generate_embedding
  dsimp only
  split
  · simp [drawUniforms_length]
  · simp

/-- C3: `generate_embedding` is deterministic — its result does not
depend on the incoming state of the process's random generator (the
function reseeds from the text alone before drawing), so two calls on the
same text return exactly equal vectors of 384 values, for every generator
implementation, process hash function and square-root implementation. -/
theorem generate_embedding_deterministic {σ : Type} (R : PyRandom σ)
    (pyHash : String → ℤ) (sq : ℚ → ℚ) (t : String) (s1 s2 : σ) :
    (generate_embedding R pyHash sq t s1).1 =
      (generate_embedding R pyHash sq t s2).1 ∧
    (generate_embedding R pyHash sq t s1).1.length = 384 :=
  ⟨rfl, generate_embedding_length R pyHash sq t s1⟩

/-! ## C2 — key isolation -/

theorem obfuscate_ok_of (l : List PyVal) (k : String) (hne : l ≠ [])
    (hnum : l.all isNumeric = true) :
    obfuscate l (.str k) = .ok (l.map (fun v => addVal v (transformVal k))) := by
  simp [obfuscate, hnum, List.length_eq_zero, hne]

theorem floatVals_all_numeric (l : List ℚ) :
    (floatVals l).all isNumeric = true := by
  simp only [floatVals, List.all_eq_true]
  intro a ha
  obtain ⟨q, -, rfl⟩ := List.mem_map.1 ha
  rfl

/-- Keys with equal derived transforms obfuscate identically. -/
theorem obfuscate_congr_key (l : List PyVal) (k1 k2 : String)
    (h : transformVal k1 = transformVal k2) :
    obfuscate l (.str k1) = obfuscate l (.str k2) := by
  simp only [obfuscate, h]

theorem obfuscate_floatVals_ne (l : List ℚ) (hl : l ≠ []) (k1 k2 : String)
    (hk : transformVal k1 ≠ transformVal k2) :
    obfuscate (floatVals l) (.str k1) ≠ obfuscate (floatVals l) (.str k2) := by
  obtain ⟨q, rest, rfl⟩ : ∃ q rest, l = q :: rest := by
    cases l with
    | nil => exact absurd rfl hl
    | cons a as => exact ⟨a, as, rfl⟩
  have hfne : floatVals (q :: rest) ≠ [] := by simp [floatVals]
  intro heq
  rw [obfuscate_ok_of _ k1 hfne (floatVals_all_numeric _),
    obfuscate_ok_of _ k2 hfne (floatVals_all_numeric _)] at heq
  simp only [Except.ok.injEq, floatVals, List.map_cons, List.map_map,
    List.cons.injEq] at heq
  have := heq.1
  simp only [addVal, addFloat, PyVal.float.injEq, PyFloat.finite.injEq] at this
  exact hk (by linarith)

/-- The derived transform for key `"v"` (seed 1284786270, residue 270). -/
theorem transformVal_key_v : transformVal "v" = -23 / 1000 := by
  have h : keySeed "v" = 1284786270 := by decide
  rw [transformVal, h]
  norm_num

/-- The derived transform for key `"y"` (seed 2717705270, residue 270). -/
theorem transformVal_key_y : transformVal "y" = -23 / 1000 := by
  have h : keySeed "y" = 2717705270 := by decide
  rw [transformVal, h]
  norm_num

/-- The derived transform for key `"a"` (seed 3398926610, residue 610). -/
theorem transformVal_key_a : transformVal "a" = 11 / 1000 := by
  have h : keySeed "a" = 3398926610 := by decide
  rw [transformVal, h]
  norm_num

/-- The derived transform for key `"b"` (seed 1042540566, residue 566). -/
theorem transformVal_key_b : transformVal "b" = 33 / 5000 := by
  have h : keySeed "b" = 1042540566 := by decide
  rw [transformVal, h]
  norm_num

/-- C2 as amended: for every text `t` and every pair of keys whose
derived transform scalars differ, the two obfuscations of
`generate_embedding(t)` differ, while `generate_embedding(t)` is the same
vector in both runs.  (As literally stated — for every pair of distinct
keys — the claim is false: distinct keys can derive equal transforms; see
the counterexample.) -/
theorem obfuscate_key_isolation_amended {σ : Type} (R : PyRandom σ)
    (pyHash : String → ℤ) (sq : ℚ → ℚ) (t : String) (s s' : σ) (k1 k2 : String)
    (hk : transformVal k1 ≠ transformVal k2) :
    obfuscate (floatVals (generate_embedding R pyHash sq t s).1) (.str k1) ≠
      obfuscate (floatVals (generate_embedding R pyHash sq t s).1) (.str k2) ∧
    (generate_embedding R pyHash sq t s).1 =
      (generate_embedding R pyHash sq t s').1 := by
  refine ⟨obfuscate_floatVals_ne _ ?_ k1 k2 hk, rfl⟩
  have hlen := generate_embedding_length R pyHash sq t s
  intro h
  rw [h] at hlen
  simp at hlen

/-- Witness for the amended C2 at keys `"a"` and `"b"` (derived
transforms `11/1000` and `33/5000`) in the concrete generator instance. -/
theorem obfuscate_key_isolation_amended_witness :
    transformVal "a" ≠ transformVal "b" ∧
    obfuscate (floatVals
        (generate_embedding cexRandom cexHash cexSq "hello" ()).1) (.str "a") ≠
      obfuscate (floatVals
        (generate_embedding cexRandom cexHash cexSq "hello" ()).1) (.str "b") := by
  have hk : transformVal "a" ≠ transformVal "b" := by
    rw [transformVal_key_a, transformVal_key_b]
    norm_num
  exact ⟨hk,
    (obfuscate_key_isolation_amended cexRandom cexHash cexSq "hello" () () "a" "b"
      hk).1⟩

/-- C2 counterexample: the distinct keys `"v"` and `"y"` hash to seeds
`1284786270` and `2717705270`, both `≡ 270 (mod 1000)`, so they derive
the same transform scalar and the two obfuscations of
`generate_embedding("hello")` coincide — key isolation as stated is false. -/
theorem obfuscate_key_isolation_counterexample :
    ("v" : String) ≠ "y" ∧
    obfuscate (floatVals
        (generate_embedding cexRandom cexHash cexSq "hello" ()).1) (.str "v") =
      obfuscate (floatVals
        (generate_embedding cexRandom cexHash cexSq "hello" ()).1) (.str "y") :=
  ⟨by decide,
    obfuscate_congr_key _ "v" "y"
      (transformVal_key_v.trans transformVal_key_y.symm)⟩

/-! ## C4, C10 — circuit breaker state machine -/

/-- A successful call while CLOSED returns normally and leaves the
breaker entirely unchanged (in particular the failure counter is not
reset). -/
theorem call_success_closed (cb : CircuitBreaker) (t : ℚ)
    (hs : cb.state = .closed) : cb.call t true = (.returned, cb) := by
  obtain ⟨ft, rt, st, fc, lf, sc⟩ := cb
  simp only at hs
  subst hs
  simp [CircuitBreaker.call, CircuitBreaker.attempt, CircuitBreaker.record_success]

/-- A failing call while CLOSED that brings the counter to the threshold
opens the breaker. -/
theorem call_failure_opens (cb : CircuitBreaker) (t : ℚ)
    (hs : cb.state = .closed)
    (hth : cb.failure_threshold ≤ cb.failure_count + 1) :
    ((cb.call t false).2).state = .opened := by
  obtain ⟨ft, rt, st, fc, lf, sc⟩ := cb
  simp only at hs hth
  subst hs
  simp [CircuitBreaker.call, CircuitBreaker.attempt,
    CircuitBreaker.record_failure, hth]

/-- While the breaker stays below the threshold, calls from CLOSED keep
it CLOSED and the failure counter accumulates exactly the failures. -/
theorem runCalls_closed (L : List (ℚ × Bool)) : ∀ cb : CircuitBreaker,
    cb.failure_threshold = 3 → cb.state = .closed →
    cb.failure_count + countFailures L < 3 →
    (cb.runCalls L).state = .closed ∧
    (cb.runCalls L).failure_count = cb.failure_count + countFailures L ∧
    (cb.runCalls L).failure_threshold = 3 := by
  induction L with
  | nil =>
    intro cb h3 hs hlt
    exact ⟨by simpa [CircuitBreaker.runCalls] using hs,
      by simp [CircuitBreaker.runCalls, countFailures],
      by simpa [CircuitBreaker.runCalls] using h3⟩
  | cons p rest ih =>
    intro cb h3 hs hlt
    obtain ⟨t, b⟩ := p
    cases b with
    | true =>
      have hcf : countFailures ((t, true) :: rest) = countFailures rest := by
        simp [countFailures]
      rw [hcf] at hlt
      rw [CircuitBreaker.runCalls, call_success_closed cb t hs, hcf]
      exact ih cb h3 hs hlt
    | false =>
      have hcf : countFailures ((t, false) :: rest) =
          1 + countFailures rest := by
        simp [countFailures, Nat.add_comm]
      rw [hcf] at hlt
      obtain ⟨ft, rt, st, fc, lf, sc⟩ := cb
      simp only at h3 hs hlt
      subst h3
      subst hs
      rw [CircuitBreaker.runCalls]
      have hstep :
          (CircuitBreaker.call ⟨3, rt, .closed, fc, lf, sc⟩ t false).2 =
            ⟨3, rt, .closed, fc + 1, some t, sc⟩ := by
        have hlt1 : ¬ (fc + 1 ≥ 3) := by omega
        simp [CircuitBreaker.call, CircuitBreaker.attempt,
          CircuitBreaker.record_failure, hlt1]
      rw [hstep]
      have h := ih ⟨3, rt, .closed, fc + 1, some t, sc⟩ rfl rfl (by
        simp only
        omega)
      simp only at h
      rw [hcf]
      exact ⟨h.1, by rw [h.2.1]; dsimp only; omega, h.2.2⟩

/-- C4: the circuit-breaker state machine with `failure_threshold = 3`:
(1) three consecutive failures in CLOSED open the breaker; (2) while
OPEN, a call before `recovery_timeout` has elapsed since the last failure
is rejected with `CircuitBreakerOpenException` without invoking the
wrapped function (the outcome is `rejectedOpen` whatever the wrapped
function would do, and the state is untouched); (3) a call after the
timeout first moves the state to HALF_OPEN and attempts the call; (4) two
consecutive successes in HALF_OPEN return the breaker to CLOSED with both
counters zero; (5) a single failure in HALF_OPEN reopens the breaker. -/
theorem circuit_breaker_state_machine :
    (∀ (cb : CircuitBreaker) (t1 t2 t3 : ℚ),
      cb.failure_threshold = 3 → cb.state = .closed → cb.failure_count = 0 →
      ((((cb.call t1 false).2.call t2 false).2.call t3 false).2).state =
        .opened) ∧
    (∀ (cb : CircuitBreaker) (now tf : ℚ) (b : Bool),
      cb.state = .opened → cb.last_failure_time = some tf →
      now - tf < cb.recovery_timeout →
      cb.call now b = (.rejectedOpen, cb)) ∧
    (∀ (cb : CircuitBreaker) (now tf : ℚ) (b : Bool),
      cb.state = .opened → cb.last_failure_time = some tf →
      now - tf ≥ cb.recovery_timeout →
      cb.call now b =
        CircuitBreaker.attempt { cb with state := .halfOpen } now b ∧
      (cb.call now b).1 = (if b then .returned else .raised)) ∧
    (∀ (cb : CircuitBreaker) (t1 t2 : ℚ),
      cb.state = .halfOpen →
      (((cb.call t1 true).2.call t2 true).2).state = .closed ∧
      (((cb.call t1 true).2.call t2 true).2).failure_count = 0 ∧
      (((cb.call t1 true).2.call t2 true).2).success_count = 0) ∧
    (∀ (cb : CircuitBreaker) (t : ℚ),
      cb.state = .halfOpen → ((cb.call t false).2).state = .opened) := by
  refine ⟨?_, ?_, ?_, ?_, ?_⟩
  · intro cb t1 t2 t3 h3 hs h0
    obtain ⟨ft, rt, st, fc, lf, sc⟩ := cb
    simp only at h3 hs h0
    subst h3; subst hs; subst h0
    simp [CircuitBreaker.call, CircuitBreaker.attempt,
      CircuitBreaker.record_failure, CircuitBreaker.record_success]
  · intro cb now tf b hs hl hlt
    obtain ⟨ft, rt, st, fc, lf, sc⟩ := cb
    simp only at hs hl
    subst hs; subst hl
    have h : ¬ (now - tf ≥ rt) := not_le.mpr hlt
    simp [CircuitBreaker.call, CircuitBreaker.can_attempt_reset, h]
  · intro cb now tf b hs hl hge
    obtain ⟨ft, rt, st, fc, lf, sc⟩ := cb
    simp only at hs hl hge
    subst hs; subst hl
    constructor
    · simp [CircuitBreaker.call, CircuitBreaker.can_attempt_reset, hge]
    · cases b <;>
        simp [CircuitBreaker.call, CircuitBreaker.can_attempt_reset, hge,
          CircuitBreaker.attempt]
  · intro cb t1 t2 hs
    obtain ⟨ft, rt, st, fc, lf, sc⟩ := cb
    simp only at hs
    subst hs
    by_cases h2 : sc + 1 ≥ 2
    · simp [CircuitBreaker.call, CircuitBreaker.attempt,
        CircuitBreaker.record_success, CircuitBreaker.reset, h2]
    · have h1 : sc + 1 + 1 ≥ 2 := by omega
      simp [CircuitBreaker.call, CircuitBreaker.attempt,
        CircuitBreaker.record_success, CircuitBreaker.reset, h2, h1]
  · intro cb t hs
    obtain ⟨ft, rt, st, fc, lf, sc⟩ := cb
    simp only at hs
    subst hs
    simp [CircuitBreaker.call, CircuitBreaker.attempt,
      CircuitBreaker.record_failure]

/-- Witness for C4 on the concrete breakers `cbFresh`, `cbOpenEx` and
`cbHalfEx` (threshold 3, recovery timeout 30, last failure at time 2). -/
theorem circuit_breaker_state_machine_witness :
    ((((cbFresh.call 0 false).2.call 1 false).2.call 2 false).2).state =
      .opened ∧
    cbOpenEx.call 10 true = (.rejectedOpen, cbOpenEx) ∧
    cbOpenEx.call 40 false =
      CircuitBreaker.attempt { cbOpenEx with state := .halfOpen } 40 false ∧
    (((cbHalfEx.call 0 true).2.call 1 true).2).state = .closed ∧
    ((cbHalfEx.call 5 false).2).state = .opened :=
  ⟨(circuit_breaker_state_machine).1 cbFresh 0 1 2 rfl rfl rfl,
   (circuit_breaker_state_machine).2.1 cbOpenEx 10 2 true rfl rfl
     (by norm_num [cbOpenEx]),
   ((circuit_breaker_state_machine).2.2.1 cbOpenEx 40 2 false rfl rfl
     (by norm_num [cbOpenEx])).1,
   ((circuit_breaker_state_machine).2.2.2.1 cbHalfEx 0 1 rfl).1,
   (circuit_breaker_state_machine).2.2.2.2 cbHalfEx 5 rfl⟩

/-- C10 (implicit): a success while CLOSED leaves the breaker unchanged —
the failure counter is only zeroed by the HALF_OPEN → CLOSED reset — so
with `failure_threshold = 3`, any 3 failures accumulated since
construction, interleaved with arbitrarily many successes, open the
breaker; failures need not be consecutive. -/
theorem circuit_breaker_failure_accumulation (cb : CircuitBreaker)
    (L : List (ℚ × Bool)) (t : ℚ)
    (h3 : cb.failure_threshold = 3) (hs : cb.state = .closed)
    (h0 : cb.failure_count = 0) :
    (∀ t' : ℚ, cb.call t' true = (.returned, cb)) ∧
    (countFailures L < 3 →
      (cb.runCalls L).state = .closed ∧
      (cb.runCalls L).failure_count = countFailures L) ∧
    (countFailures L = 2 →
      (((cb.runCalls L).call t false).2).state = .opened) := by
  refine ⟨fun t' => call_success_closed cb t' hs, ?_, ?_⟩
  · intro hlt
    have h := runCalls_closed L cb h3 hs (by omega)
    exact ⟨h.1, by rw [h.2.1, h0]; omega⟩
  · intro h2
    have h := runCalls_closed L cb h3 hs (by omega)
    exact call_failure_opens _ t h.1
      (by rw [h.2.2, h.2.1, h0, h2])

/-- Witness for C10: two failures interleaved with a success accumulate;
the third failure (non-consecutive) opens the fresh breaker. -/
theorem circuit_breaker_failure_accumulation_witness :
    cbFresh.call 7 true = (.returned, cbFresh) ∧
    ((cbFresh.runCalls [(0, false), (1, true), (2, false)]).state = .closed ∧
      (cbFresh.runCalls [(0, false), (1, true), (2, false)]).failure_count =
        countFailures [(0, false), (1, true), (2, false)]) ∧
    (((cbFresh.runCalls [(0, false), (1, true), (2, false)]).call 5 false).2).state
      = .opened := by
  have h := circuit_breaker_failure_accumulation cbFresh
    [(0, false), (1, true), (2, false)] 5 rfl rfl rfl
  exact ⟨h.1 7, h.2.1 (by decide), h.2.2 (by decide)⟩

/-! ## C5 — retry with exponential backoff -/

/-- One-step unfolding of the retry loop. -/
theorem retryLoop_succ {α ε : Type} (maxR : ℕ) (base : ℚ)
    (att : ℕ → Attempt α ε) (r i : ℕ) (last : Option ε) :
    retryLoop maxR base att (r + 1) i last =
      match att i with
      | .ok v => (.ok v, 1, [])
      | .circuitOpen => (.circuitOpen, 1, [])
      | .fail e =>
        let rest := retryLoop maxR base att r (i + 1) (some e)
        (rest.1, rest.2.1 + 1,
         (if i < maxR - 1 then [base * 2 ^ i] else []) ++ rest.2.2) := rfl

/-- Prepending the sleep of attempt `i` to the sleeps of attempts
`i+1, ..., i+k` gives the sleeps of attempts `i, ..., i+k`. -/
theorem sleeps_cons (base : ℚ) (i k : ℕ) :
    base * 2 ^ i :: (List.range k).map (fun j => base * 2 ^ (i + 1 + j)) =
      (List.range (k + 1)).map (fun j => base * 2 ^ (i + j)) := by
  rw [List.range_succ_eq_map, List.map_cons, List.map_map]
  refine congrArg₂ _ (by rw [Nat.add_zero]) ?_
  refine List.map_congr_left (fun j _ => ?_)
  simp only [Function.comp_apply]
  rw [show i + (j + 1) = i + 1 + j by omega]

theorem retryLoop_calls_le {α ε : Type} (maxR : ℕ) (base : ℚ)
    (att : ℕ → Attempt α ε) :
    ∀ (r i : ℕ) (last : Option ε),
      (retryLoop maxR base att r i last).2.1 ≤ r := by
  intro r
  induction r with
  | zero =>
    intro i last
    cases last <;> simp [retryLoop]
  | succ r ih =>
    intro i last
    cases h : att i with
    | ok v => simp [retryLoop, h]
    | circuitOpen => simp [retryLoop, h]
    | fail e =>
      simp only [retryLoop, h]
      have := ih (i + 1) (some e)
      omega

theorem retryLoop_stops_ok {α ε : Type} (maxR : ℕ) (base : ℚ)
    (att : ℕ → Attempt α ε) (v : α) :
    ∀ (k r i : ℕ) (last : Option ε), i + r = maxR → k < r →
      (∀ j, j < k → ∃ e, att (i + j) = .fail e) → att (i + k) = .ok v →
      retryLoop maxR base att r i last =
        (.ok v, k + 1, (List.range k).map (fun j => base * 2 ^ (i + j))) := by
  intro k
  induction k with
  | zero =>
    intro r i last hir hk hfail hstop
    rw [Nat.add_zero] at hstop
    cases r with
    | zero => omega
    | succ r' => simp [retryLoop, hstop]
  | succ k ih =>
    intro r i last hir hk hfail hstop
    cases r with
    | zero => omega
    | succ r' =>
      obtain ⟨e0, he0⟩ := hfail 0 (by omega)
      rw [Nat.add_zero] at he0
      have hrest := ih r' (i + 1) (some e0) (by omega) (by omega)
        (fun j hj => by
          obtain ⟨e, he⟩ := hfail (j + 1) (by omega)
          exact ⟨e, by rwa [show i + (j + 1) = i + 1 + j by omega] at he⟩)
        (by rwa [show i + (k + 1) = i + 1 + k by omega] at hstop)
      have hlt : i < maxR - 1 := by omega
      rw [retryLoop_succ, he0]
      dsimp only
      rw [hrest, if_pos hlt]
      dsimp only
      rw [List.singleton_append, sleeps_cons]

theorem retryLoop_stops_circuitOpen {α ε : Type} (maxR : ℕ) (base : ℚ)
    (att : ℕ → Attempt α ε) :
    ∀ (k r i : ℕ) (last : Option ε), i + r = maxR → k < r →
      (∀ j, j < k → ∃ e, att (i + j) = .fail e) →
      att (i + k) = .circuitOpen →
      retryLoop maxR base att r i last =
        (.circuitOpen, k + 1,
          (List.range k).map (fun j => base * 2 ^ (i + j))) := by
  intro k
  induction k with
  | zero =>
    intro r i last hir hk hfail hstop
    rw [Nat.add_zero] at hstop
    cases r with
    | zero => omega
    | succ r' => simp [retryLoop, hstop]
  | succ k ih =>
    intro r i last hir hk hfail hstop
    cases r with
    | zero => omega
    | succ r' =>
      obtain ⟨e0, he0⟩ := hfail 0 (by omega)
      rw [Nat.add_zero] at he0
      have hrest := ih r' (i + 1) (some e0) (by omega) (by omega)
        (fun j hj => by
          obtain ⟨e, he⟩ := hfail (j + 1) (by omega)
          exact ⟨e, by rwa [show i + (j + 1) = i + 1 + j by omega] at he⟩)
        (by rwa [show i + (k + 1) = i + 1 + k by omega] at hstop)
      have hlt : i < maxR - 1 := by omega
      rw [retryLoop_succ, he0]
      dsimp only
      rw [hrest, if_pos hlt]
      dsimp only
      rw [List.singleton_append, sleeps_cons]

theorem retryLoop_all_fail {α ε : Type} (maxR : ℕ) (base : ℚ)
    (att : ℕ → Attempt α ε) :
    ∀ (r i : ℕ) (last : Option ε), i + r = maxR → 0 < r →
      (∀ j, j < r → ∃ e, att (i + j) = .fail e) →
      ∃ e, att (i + (r - 1)) = .fail e ∧
        retryLoop maxR base att r i last =
          (.failed e, r, (List.range (r - 1)).map (fun j => base * 2 ^ (i + j))) := by
  intro r
  induction r with
  | zero => intro i last _ h0; omega
  | succ r' ih =>
    intro i last hir _ hfail
    obtain ⟨e0, he0⟩ := hfail 0 (by omega)
    rw [Nat.add_zero] at he0
    cases r' with
    | zero =>
      have hlt : ¬ i < maxR - 1 := by omega
      exact ⟨e0, by simpa using he0, by simp [retryLoop, he0, hlt]⟩
    | succ s =>
      obtain ⟨e, he, heq⟩ := ih (i + 1) (some e0) (by omega) (by omega)
        (fun j hj => by
          obtain ⟨e', he'⟩ := hfail (j + 1) (by omega)
          exact ⟨e', by rwa [show i + (j + 1) = i + 1 + j by omega] at he'⟩)
      refine ⟨e, by rwa [show i + (s + 1 + 1 - 1) = i + 1 + (s + 1 - 1) by omega],
        ?_⟩
      have hlt : i < maxR - 1 := by omega
      rw [retryLoop_succ, he0]
      dsimp only
      rw [heq, if_pos hlt]
      dsimp only
      rw [List.singleton_append,
        show s + 1 + 1 - 1 = s + 1 by omega, show s + 1 - 1 = s by omega,
        sleeps_cons]

/-- C5: the retry wrapper makes at most `max_retries` attempts; a failed
attempt that is not the last is followed by a sleep of
`base_delay * 2^attempt` (attempt indexed from 0) and the sleeps occur in
exactly that schedule; a `CircuitBreakerOpenException` is propagated
immediately with no further attempts and no sleep after it; when every
attempt fails, the last observed exception is propagated. -/
theorem retry_with_backoff_policy {α ε : Type} (maxR : ℕ) (base : ℚ)
    (att : ℕ → Attempt α ε) :
    ((retry_with_backoff maxR base att).2.1 ≤ maxR) ∧
    (∀ i v, i < maxR → (∀ j, j < i → ∃ e, att j = .fail e) →
      att i = .ok v →
      retry_with_backoff maxR base att =
        (.ok v, i + 1, (List.range i).map (fun j => base * 2 ^ j))) ∧
    (∀ i, i < maxR → (∀ j, j < i → ∃ e, att j = .fail e) →
      att i = .circuitOpen →
      retry_with_backoff maxR base att =
        (.circuitOpen, i + 1, (List.range i).map (fun j => base * 2 ^ j))) ∧
    (0 < maxR → (∀ j, j < maxR → ∃ e, att j = .fail e) →
      ∃ e, att (maxR - 1) = .fail e ∧
        retry_with_backoff maxR base att =
          (.failed e, maxR,
            (List.range (maxR - 1)).map (fun j => base * 2 ^ j))) := by
  have hzero : ∀ n : ℕ, (List.range n).map (fun j => base * 2 ^ (0 + j)) =
      (List.range n).map (fun j => base * 2 ^ j) :=
    fun n => List.map_congr_left (fun j _ => by rw [Nat.zero_add])
  refine ⟨retryLoop_calls_le maxR base att maxR 0 none, ?_, ?_, ?_⟩
  · intro i v hi hfail hstop
    have h := retryLoop_stops_ok maxR base att v i maxR 0 none
      (by omega) hi (fun j hj => by simpa using hfail j hj)
      (by simpa using hstop)
    rw [retry_with_backoff, h, hzero]
  · intro i hi hfail hstop
    have h := retryLoop_stops_circuitOpen maxR base att i maxR 0 none
      (by omega) hi (fun j hj => by simpa using hfail j hj)
      (by simpa using hstop)
    rw [retry_with_backoff, h, hzero]
  · intro hpos hfail
    obtain ⟨e, he, heq⟩ := retryLoop_all_fail maxR base att maxR 0 none
      (by omega) hpos (fun j hj => by simpa using hfail j hj)
    exact ⟨e, by simpa using he, by rw [retry_with_backoff, heq, hzero]⟩

/-- Witness for C5 on concrete attempt schedules with `max_retries = 3`,
`base_delay = 1`: a failure then a success (one sleep of 1s), a failure
then a circuit-open (propagated, one prior sleep), and three failures
(last exception propagated, sleeps 1s and 2s). -/
theorem retry_with_backoff_policy_witness :
    retry_with_backoff 3 1 attOkAt1 = (.ok 42, 2, [1]) ∧
    retry_with_backoff 3 1 attCOAt1 = (.circuitOpen, 2, [1]) ∧
    (∃ e, attAllFail (3 - 1) = .fail e ∧
      retry_with_backoff 3 1 attAllFail = (.failed e, 3, [1, 2])) := by
  refine ⟨?_, ?_, ?_⟩
  · have h := (retry_with_backoff_policy 3 1 attOkAt1).2.1 1 42 (by norm_num)
      (fun j hj => by interval_cases j; exact ⟨5, rfl⟩) rfl
    rw [h]
    norm_num [List.range_succ]
  · have h := (retry_with_backoff_policy 3 1 attCOAt1).2.2.1 1 (by norm_num)
      (fun j hj => by interval_cases j; exact ⟨7, rfl⟩) rfl
    rw [h]
    norm_num [List.range_succ]
  · obtain ⟨e, he, heq⟩ := (retry_with_backoff_policy 3 1 attAllFail).2.2.2
      (by norm_num) (fun j _ => ⟨j, rfl⟩)
    refine ⟨e, he, ?_⟩
    rw [heq]
    norm_num [List.range_succ]

/-! ## C8 — key retrieval returns absent rather than raising -/

/-- C8: for every non-empty `user_id`, `get_key` returns `None` (rather
than raising) both when no record exists for the user and when the stored
encrypted key cannot be decrypted under the current master key. -/
theorem keystore_get_key_absent (fernetDecrypt : List ℕ → Option (List ℕ))
    (ks : KeyStore) (user_id : String) (h : user_id ≠ "") :
    (ks.user_keys user_id = none →
      KeyStore.get_key fernetDecrypt ks user_id = .ok none) ∧
    (∀ blob, ks.user_keys user_id = some blob → fernetDecrypt blob = none →
      KeyStore.get_key fernetDecrypt ks user_id = .ok none) := by
  constructor
  · intro hnone
    simp [KeyStore.get_key, h, hnone]
  · intro blob hblob hdec
    simp [KeyStore.get_key, h, hblob, hdec]

/-- Witness for C8: user `u1` has a record that fails to decrypt, user
`u2` has no record; both lookups return `.ok none`. -/
theorem keystore_get_key_absent_witness :
    KeyStore.get_key decFail ksEx "u1" = .ok none ∧
    KeyStore.get_key decFail ksEx "u2" = .ok none :=
  ⟨(keystore_get_key_absent decFail ksEx "u1" (by decide)).2 [1, 2] rfl rfl,
   (keystore_get_key_absent decFail ksEx "u2" (by decide)).1 rfl⟩

/-! ## C9 — cache TTL -/

theorem lookup_setEntry_self {α : Type} (l : List (CacheEntry α)) (k : String)
    (v : α) (x : ℚ) : lookupEntry (setEntry l k v x) k = some (v, x) := by
  induction l with
  | nil => simp [setEntry, lookupEntry]
  | cons e rest ih =>
    by_cases h : e.key = k
    · simp [setEntry, h, lookupEntry]
    · simp [setEntry, h, lookupEntry, ih]

theorem mem_keys_setEntry {α : Type} (l : List (CacheEntry α)) (k : String)
    (v : α) (x : ℚ) (a : String)
    (ha : a ∈ (setEntry l k v x).map CacheEntry.key) :
    a ∈ l.map CacheEntry.key ∨ a = k := by
  induction l with
  | nil => simpa [setEntry] using ha
  | cons e rest ih =>
    by_cases h : e.key = k
    · simp only [setEntry, h, if_pos, List.map_cons, List.mem_cons] at ha
      rcases ha with ha | ha
      · exact Or.inr ha
      · exact Or.inl (by simp [ha])
    · simp only [setEntry, h, if_neg, not_false_iff, List.map_cons,
        List.mem_cons] at ha
      rcases ha with ha | ha
      · exact Or.inl (by simp [ha])
      · rcases ih ha with hm | hk
        · exact Or.inl (by simp [hm])
        · exact Or.inr hk

theorem nodup_keys_setEntry {α : Type} (l : List (CacheEntry α)) (k : String)
    (v : α) (x : ℚ) (hnd : (l.map CacheEntry.key).Nodup) :
    ((setEntry l k v x).map CacheEntry.key).Nodup := by
  induction l with
  | nil => simp [setEntry]
  | cons e rest ih =>
    rw [List.map_cons, List.nodup_cons] at hnd
    by_cases h : e.key = k
    · rw [setEntry, if_pos h, List.map_cons, List.nodup_cons]
      exact ⟨by simpa [h] using hnd.1, hnd.2⟩
    · rw [setEntry, if_neg h, List.map_cons, List.nodup_cons]
      refine ⟨fun hmem => ?_, ih hnd.2⟩
      rcases mem_keys_setEntry rest k v x e.key hmem with hm | hk
      · exact hnd.1 hm
      · exact h hk

theorem lookup_eq_none_of_not_mem_keys {α : Type} (l : List (CacheEntry α))
    (k : String) (h : k ∉ l.map CacheEntry.key) : lookupEntry l k = none := by
  induction l with
  | nil => rfl
  | cons e rest ih =>
    rw [List.map_cons, List.mem_cons] at h
    push_neg at h
    rw [lookupEntry, if_neg (fun he => h.1 he.symm)]
    exact ih h.2

theorem lookup_removeEntry_self {α : Type} (l : List (CacheEntry α))
    (k : String) (hnd : (l.map CacheEntry.key).Nodup) :
    lookupEntry (removeEntry l k) k = none := by
  induction l with
  | nil => rfl
  | cons e rest ih =>
    rw [List.map_cons, List.nodup_cons] at hnd
    by_cases h : e.key = k
    · rw [removeEntry, if_pos h]
      exact lookup_eq_none_of_not_mem_keys rest k (h ▸ hnd.1)
    · rw [removeEntry, if_neg h, lookupEntry, if_neg h]
      exact ih hnd.2

theorem mem_setEntry_self {α : Type} (l : List (CacheEntry α)) (k : String)
    (v : α) (x : ℚ) : (⟨k, v, x⟩ : CacheEntry α) ∈ setEntry l k v x := by
  induction l with
  | nil => simp [setEntry]
  | cons e rest ih =>
    by_cases h : e.key = k
    · simp [setEntry, h]
    · simp only [setEntry, h, if_neg, not_false_iff, List.mem_cons]
      exact Or.inr ih

theorem filter_length_mono {β : Type} (l : List β) (p q : β → Bool)
    (hpq : ∀ a ∈ l, p a = true → q a = true) :
    (l.filter p).length ≤ (l.filter q).length := by
  induction l with
  | nil => simp
  | cons b rest ih =>
    have ih' := ih (fun a ha => hpq a (List.mem_cons_of_mem b ha))
    cases hp : p b with
    | true =>
      rw [List.filter_cons_of_pos hp,
        List.filter_cons_of_pos (hpq b (List.mem_cons_self b rest) hp)]
      simpa using ih'
    | false =>
      rw [List.filter_cons_of_neg (by simp [hp])]
      cases hq : q b with
      | true => rw [List.filter_cons_of_pos hq]; simp; omega
      | false => rw [List.filter_cons_of_neg (by simp [hq])]; exact ih'

theorem filter_length_lt {β : Type} (l : List β) (p q : β → Bool)
    (hpq : ∀ a ∈ l, p a = true → q a = true)
    (a : β) (ha : a ∈ l) (hqa : q a = true) (hpa : p a = false) :
    (l.filter p).length < (l.filter q).length := by
  induction l with
  | nil => cases ha
  | cons b rest ih =>
    have hmono : (rest.filter p).length ≤ (rest.filter q).length :=
      filter_length_mono rest p q (fun c hc => hpq c (List.mem_cons_of_mem b hc))
    rcases List.mem_cons.1 ha with rfl | ha'
    · rw [List.filter_cons_of_neg (by simp [hpa]), List.filter_cons_of_pos hqa]
      simp only [List.length_cons]
      omega
    · have ihlt := ih (fun c hc => hpq c (List.mem_cons_of_mem b hc)) ha'
      cases hp : p b with
      | true =>
        rw [List.filter_cons_of_pos hp,
          List.filter_cons_of_pos (hpq b (List.mem_cons_self b rest) hp)]
        simpa using ihlt
      | false =>
        rw [List.filter_cons_of_neg (by simp [hp])]
        cases hq : q b with
        | true => rw [List.filter_cons_of_pos hq]; simp only [List.length_cons]; omega
        | false => rw [List.filter_cons_of_neg (by simp [hq])]; exact ihlt

/-- C9: after `set(k, v, ttl)` at time `now0` on an enabled cache, a
`get(k)` before the expiry timestamp `now0 + ttl` returns `v`; a `get(k)`
at or after the expiry returns absent and evicts the entry (the hashed
key no longer resolves in the resulting cache); and once the TTL has
passed, `stats().expired_entries` strictly increases relative to any
pre-expiry instant (the unevicted entry is counted as expired). -/
theorem cache_ttl_spec {α : Type} (mkKey : String → String)
    (m : CacheManager α) (now0 t1 t2 : ℚ) (k : String) (v : α) (ttl : ℚ)
    (hen : m.enabled = true)
    (hnd : (m.cache.map CacheEntry.key).Nodup) :
    (t1 < now0 + ttl →
      (CacheManager.get mkKey (CacheManager.set mkKey m now0 k v ttl).2 t1 k).1 =
        some v) ∧
    (now0 + ttl ≤ t2 →
      (CacheManager.get mkKey (CacheManager.set mkKey m now0 k v ttl).2 t2 k).1 =
        none ∧
      lookupEntry
        ((CacheManager.get mkKey (CacheManager.set mkKey m now0 k v ttl).2 t2 k).2).cache
        (mkKey k) = none) ∧
    (t1 < now0 + ttl → now0 + ttl ≤ t2 →
      (((CacheManager.set mkKey m now0 k v ttl).2).stats t1).2.2 <
      (((CacheManager.set mkKey m now0 k v ttl).2).stats t2).2.2) := by
  have hm1 : (CacheManager.set mkKey m now0 k v ttl).2 =
      { m with cache := setEntry m.cache (mkKey k) v (now0 + ttl) } := by
    simp [CacheManager.set, hen]
  refine ⟨?_, ?_, ?_⟩
  · intro h1
    rw [hm1]
    simp [CacheManager.get, hen, lookup_setEntry_self, h1]
  · intro h2
    rw [hm1]
    have hxp : ¬ (t2 < now0 + ttl) := not_lt.mpr h2
    constructor
    · simp [CacheManager.get, hen, lookup_setEntry_self, hxp]
    · simp only [CacheManager.get, hen, Bool.true_eq_false, not_true_eq_false,
        if_neg, not_false_iff, lookup_setEntry_self, hxp, if_false]
      exact lookup_removeEntry_self _ _
        (nodup_keys_setEntry m.cache (mkKey k) v (now0 + ttl) hnd)
  · intro h1 h2
    rw [hm1]
    simp only [CacheManager.stats]
    have hlt := filter_length_lt (setEntry m.cache (mkKey k) v (now0 + ttl))
      (fun e => decide (t2 < e.expiry)) (fun e => decide (t1 < e.expiry))
      (fun e _ hp => by
        have hp' : t2 < e.expiry := of_decide_eq_true hp
        exact decide_eq_true (lt_of_le_of_lt (le_trans (le_of_lt h1) h2) hp'))
      ⟨mkKey k, v, now0 + ttl⟩
      (mem_setEntry_self m.cache (mkKey k) v (now0 + ttl))
      (decide_eq_true h1)
      (decide_eq_false (not_lt.mpr h2))
    have hle1 := List.length_filter_le
      (fun e : CacheEntry α => decide (t1 < e.expiry))
      (setEntry m.cache (mkKey k) v (now0 + ttl))
    omega

/-- Witness for C9: an empty enabled cache with identity key hashing;
`set` at time 0 with TTL 10; `get` at time 5 returns the value, `get` at
time 10 is absent and evicts, and `expired_entries` grows from time 5 to
time 10. -/
theorem cache_ttl_spec_witness :
    (CacheManager.get (fun s => s)
      (CacheManager.set (fun s => s) emptyCache 0 "k" 7 10).2 5 "k").1 =
        some 7 ∧
    (CacheManager.get (fun s => s)
      (CacheManager.set (fun s => s) emptyCache 0 "k" 7 10).2 10 "k").1 =
        none ∧
    (((CacheManager.set (fun s => s) emptyCache 0 "k" 7 10).2).stats 5).2.2 <
    (((CacheManager.set (fun s => s) emptyCache 0 "k" 7 10).2).stats 10).2.2 := by
  have h := cache_ttl_spec (fun s => s) emptyCache 0 5 10 "k" 7 10 rfl
    (by simp [emptyCache])
  exact ⟨h.1 (by norm_num), (h.2.1 (by norm_num)).1,
    h.2.2 (by norm_num) (by norm_num)⟩

/-! ## C7 — the pre-write validation gate -/

theorem list_sum_map_sub (l : List ℚ) (c : ℚ) :
    (l.map (fun x => x - c)).sum = l.sum - l.length * c := by
  induction l with
  | nil => simp
  | cons a rest ih =>
    simp only [List.map_cons, List.sum_cons, List.length_cons, ih]
    push_cast
    ring

theorem list_abs_sum_le (l : List ℚ) :
    |l.sum| ≤ (l.map (fun x => |x|)).sum := by
  induction l with
  | nil => simp
  | cons a rest ih =>
    simp only [List.sum_cons, List.map_cons]
    exact le_trans (abs_add _ _) (by linarith)

theorem list_sum_le_mul (l : List ℚ) (c : ℚ) (h : ∀ x ∈ l, x ≤ c) :
    l.sum ≤ l.length * c := by
  induction l with
  | nil => simp
  | cons a rest ih =>
    simp only [List.sum_cons, List.length_cons]
    have h1 := ih (fun x hx => h x (List.mem_cons_of_mem a hx))
    have h2 := h a (List.mem_cons_self a rest)
    push_cast
    nlinarith

theorem list_sum_nonneg (l : List ℚ) (h : ∀ x ∈ l, 0 ≤ x) : 0 ≤ l.sum := by
  induction l with
  | nil => simp
  | cons a rest ih =>
    simp only [List.sum_cons]
    have h1 := ih (fun x hx => h x (List.mem_cons_of_mem a hx))
    have h2 := h a (List.mem_cons_self a rest)
    linarith

theorem abs_listMean_sub_le (l : List ℚ) (c ε : ℚ) (hl : l ≠ [])
    (h : ∀ x ∈ l, |x - c| ≤ ε) : |listMean l - c| ≤ ε := by
  have hn : (0 : ℚ) < l.length := by
    have := List.length_pos.2 hl
    exact_mod_cast this
  have hrw : listMean l - c = (l.sum - l.length * c) / l.length := by
    rw [listMean]
    field_simp
  rw [hrw, abs_div, abs_of_pos hn, div_le_iff₀ hn]
  have h1 : |l.sum - (l.length : ℚ) * c| = |(l.map (fun x => x - c)).sum| := by
    rw [list_sum_map_sub]
  rw [h1]
  refine le_trans (list_abs_sum_le _) ?_
  have h2 := list_sum_le_mul ((l.map (fun x => x - c)).map (fun x => |x|)) ε
    (by
      intro x hx
      obtain ⟨y, hy, rfl⟩ := List.mem_map.1 hx
      obtain ⟨z, hz, rfl⟩ := List.mem_map.1 hy
      exact h z hz)
  simpa [mul_comm] using h2

theorem listVariance_le_of_bounded (l : List ℚ) (c ε : ℚ) (hl : l ≠ [])
    (h : ∀ x ∈ l, |x - c| ≤ ε) : listVariance l ≤ (2 * ε) ^ 2 := by
  have hn : (0 : ℚ) < l.length := by
    have := List.length_pos.2 hl
    exact_mod_cast this
  have hmean := abs_listMean_sub_le l c ε hl h
  have hdev : ∀ x ∈ l, (x - listMean l) ^ 2 ≤ (2 * ε) ^ 2 := by
    intro x hx
    have h1 := h x hx
    have h2 : |x - listMean l| ≤ 2 * ε := by
      have h3 := abs_sub_le x c (listMean l)
      have h4 : |c - listMean l| = |listMean l - c| := abs_sub_comm c (listMean l)
      linarith
    have h5 := abs_le.1 h2
    exact sq_le_sq' (by linarith) h5.2
  rw [listVariance, div_le_iff₀ hn]
  have hsum := list_sum_le_mul (l.map (fun q => (q - listMean l) ^ 2))
    ((2 * ε) ^ 2)
    (by
      intro x hx
      obtain ⟨y, hy, rfl⟩ := List.mem_map.1 hx
      exact hdev y hy)
  simpa [mul_comm] using hsum

/-- Unfolding characterization: the gate accepts exactly the vectors that
pass every check. -/
theorem validate_embedding_eq_true_iff (e : List PyVal) :
    validate_embedding e = true ↔
      e.length = 384 ∧ e.all isNumeric = true ∧
      e.any isNan = false ∧ e.any isInf = false ∧
      e.all (fun v => absLt v (1 / 10 ^ 10)) = false ∧
      e.all (fun v =>
        decide (|numVal v - numVal e.headI| < 1 / 10 ^ 10)) = false ∧
      ¬ listVariance (e.map numVal) < (1 / 10 ^ 6 : ℚ) ^ 2 := by
  unfold validate_embedding
  split_ifs with h1 h2 h3 h4 h5 h6 h7 h8 <;> simp_all

theorem abs_numVal_lt_of_absLt (x : PyVal) (c : ℚ)
    (h : absLt x c = true) : |numVal x| < c := by
  cases x with
  | int n => simpa [absLt, numVal] using h
  | float f =>
    cases f with
    | finite q => simpa [absLt, numVal] using h
    | nan => simp [absLt] at h
    | inf => simp [absLt] at h
    | ninf => simp [absLt] at h
  | str s => simp [absLt] at h
  | noneV => simp [absLt] at h

theorem absLt_of (x : PyVal) (c : ℚ) (hfin : isFiniteNum x = true)
    (h : |numVal x| < c) : absLt x c = true := by
  cases x with
  | int n => simpa [absLt, numVal] using h
  | float f =>
    cases f with
    | finite q => simpa [absLt, numVal] using h
    | nan => simp [isFiniteNum] at hfin
    | inf => simp [isFiniteNum] at hfin
    | ninf => simp [isFiniteNum] at hfin
  | str s => simp [isFiniteNum] at hfin
  | noneV => simp [isFiniteNum] at hfin

theorem validate_false_of_length (e : List PyVal) (h : e.length ≠ 384) :
    validate_embedding e = false := by
  cases hv : validate_embedding e with
  | false => rfl
  | true => exact absurd ((validate_embedding_eq_true_iff e).1 hv).1 h

theorem validate_false_of_nonfinite (e : List PyVal) (x : PyVal) (hx : x ∈ e)
    (h : isNan x = true ∨ isInf x = true) : validate_embedding e = false := by
  cases hv : validate_embedding e with
  | false => rfl
  | true =>
    obtain ⟨-, -, hnan, hinf, -⟩ := (validate_embedding_eq_true_iff e).1 hv
    rcases h with h | h
    · rw [List.any_eq_false] at hnan
      exact (hnan x hx h).elim
    · rw [List.any_eq_false] at hinf
      exact (hinf x hx h).elim

theorem validate_false_of_all_zero (e : List PyVal)
    (h : ∀ x ∈ e, isFiniteNum x = true ∧ numVal x = 0) :
    validate_embedding e = false := by
  cases hv : validate_embedding e with
  | false => rfl
  | true =>
    obtain ⟨-, -, -, -, hzero, -⟩ := (validate_embedding_eq_true_iff e).1 hv
    have : e.all (fun v => absLt v (1 / 10 ^ 10)) = true := by
      rw [List.all_eq_true]
      intro x hx
      exact absLt_of x _ (h x hx).1 (by rw [(h x hx).2]; norm_num)
    rw [this] at hzero
    cases hzero

theorem validate_false_of_uniform (e : List PyVal) (hne : e ≠ []) (c : ℚ)
    (h : ∀ x ∈ e, isFiniteNum x = true ∧ numVal x = c) :
    validate_embedding e = false := by
  cases hv : validate_embedding e with
  | false => rfl
  | true =>
    obtain ⟨-, -, -, -, -, hunif, -⟩ := (validate_embedding_eq_true_iff e).1 hv
    have hhead : numVal e.headI = c := by
      cases e with
      | nil => exact absurd rfl hne
      | cons a rest => exact (h a (List.mem_cons_self a rest)).2
    have : e.all (fun v =>
        decide (|numVal v - numVal e.headI| < 1 / 10 ^ 10)) = true := by
      rw [List.all_eq_true]
      intro x hx
      refine decide_eq_true ?_
      rw [(h x hx).2, hhead]
      norm_num
    rw [this] at hunif
    cases hunif

theorem validate_false_of_low_variance (e : List PyVal)
    (h : listVariance (e.map numVal) < (1 / 10 ^ 6 : ℚ) ^ 2) :
    validate_embedding e = false := by
  cases hv : validate_embedding e with
  | false => rfl
  | true => exact absurd h ((validate_embedding_eq_true_iff e).1 hv).2.2.2.2.2.2

theorem validate_true_of (e : List PyVal) (hlen : e.length = 384)
    (hfin : ∀ x ∈ e, isFiniteNum x = true)
    (hvar : (1 / 10 ^ 6 : ℚ) ^ 2 < listVariance (e.map numVal)) :
    validate_embedding e = true := by
  have hne : e ≠ [] := by
    intro h
    rw [h] at hlen
    simp at hlen
  have hmapne : e.map numVal ≠ [] := by simpa [List.map_eq_nil_iff]
  rw [validate_embedding_eq_true_iff]
  refine ⟨hlen, ?_, ?_, ?_, ?_, ?_, not_lt.mpr (le_of_lt hvar)⟩
  · rw [List.all_eq_true]
    exact fun x hx => isNumeric_of_isFiniteNum (hfin x hx)
  · rw [List.any_eq_false]
    intro x hx
    have := hfin x hx
    cases x with
    | int n => simp [isNan]
    | float f =>
      cases f with
      | finite q => simp [isNan]
      | nan => simp [isFiniteNum] at this
      | inf => simp [isFiniteNum] at this
      | ninf => simp [isFiniteNum] at this
    | str s => simp [isNan]
    | noneV => simp [isNan]
  · rw [List.any_eq_false]
    intro x hx
    have := hfin x hx
    cases x with
    | int n => simp [isInf]
    | float f =>
      cases f with
      | finite q => simp [isInf]
      | nan => simp [isFiniteNum] at this
      | inf => simp [isFiniteNum] at this
      | ninf => simp [isFiniteNum] at this
    | str s => simp [isInf]
    | noneV => simp [isInf]
  · cases hz : e.all (fun v => absLt v (1 / 10 ^ 10)) with
    | false => rfl
    | true =>
      exfalso
      rw [List.all_eq_true] at hz
      have hbound := listVariance_le_of_bounded (e.map numVal) 0 (1 / 10 ^ 10)
        hmapne
        (by
          intro y hy
          obtain ⟨x, hx, rfl⟩ := List.mem_map.1 hy
          have := abs_numVal_lt_of_absLt x _ (hz x hx)
          rw [sub_zero]
          linarith)
      have : (2 * (1 / 10 ^ 10) : ℚ) ^ 2 < (1 / 10 ^ 6 : ℚ) ^ 2 := by norm_num
      linarith
  · cases hu : e.all (fun v =>
        decide (|numVal v - numVal e.headI| < 1 / 10 ^ 10)) with
    | false => rfl
    | true =>
      exfalso
      rw [List.all_eq_true] at hu
      have hbound := listVariance_le_of_bounded (e.map numVal)
        (numVal e.headI) (1 / 10 ^ 10) hmapne
        (by
          intro y hy
          obtain ⟨x, hx, rfl⟩ := List.mem_map.1 hy
          have := of_decide_eq_true (hu x hx)
          linarith)
      have : (2 * (1 / 10 ^ 10) : ℚ) ^ 2 < (1 / 10 ^ 6 : ℚ) ^ 2 := by norm_num
      linarith

/-- The write path returns the gate's verdict (as a value, not an
exception) for well-formed arguments. -/
theorem save_embedding_gate (u s p : String) (e : List PyVal)
    (hu : u ≠ "") (hs : s ≠ "") (hp : p ≠ "") (hnum : e.all isNumeric = true) :
    save_embedding u s e p = .ok (validate_embedding e) := by
  cases hv : validate_embedding e <;>
    simp [save_embedding, hu, hs, hp, hnum, hv]

/-- C7: the pre-write validation gate rejects — by returning failure, not
raising — every embedding that is not length 384, or contains a
non-finite element, or is all-zero, or is uniform, or has variance below
the squared standard-deviation threshold `(1e-6)^2`; a vector of 384
zeros makes the write return failure; and a length-384 vector of
pairwise-distinct finite values with variance above the threshold passes
the gate and the write returns success. -/
theorem validation_gate_spec :
    (∀ e : List PyVal, e.length ≠ 384 → validate_embedding e = false) ∧
    (∀ e : List PyVal, (∃ x ∈ e, isNan x = true ∨ isInf x = true) →
      validate_embedding e = false) ∧
    (∀ e : List PyVal, (∀ x ∈ e, isFiniteNum x = true ∧ numVal x = 0) →
      validate_embedding e = false) ∧
    (∀ e : List PyVal, e ≠ [] →
      (∃ c : ℚ, ∀ x ∈ e, isFiniteNum x = true ∧ numVal x = c) →
      validate_embedding e = false) ∧
    (∀ e : List PyVal, listVariance (e.map numVal) < (1 / 10 ^ 6 : ℚ) ^ 2 →
      validate_embedding e = false) ∧
    (save_embedding "u" "s" (List.replicate 384 (PyVal.float (.finite 0))) "p" =
      .ok false) ∧
    (∀ e : List PyVal, e.length = 384 → (∀ x ∈ e, isFiniteNum x = true) →
      (e.map numVal).Nodup →
      (1 / 10 ^ 6 : ℚ) ^ 2 < listVariance (e.map numVal) →
      validate_embedding e = true ∧
      save_embedding "u" "s" e "p" = .ok true) := by
  refine ⟨validate_false_of_length,
    fun e h => ?_,
    validate_false_of_all_zero,
    fun e hne h => ?_,
    validate_false_of_low_variance,
    ?_,
    fun e hlen hfin _ hvar => ?_⟩
  · obtain ⟨x, hx, hnf⟩ := h
    exact validate_false_of_nonfinite e x hx hnf
  · obtain ⟨c, hc⟩ := h
    exact validate_false_of_uniform e hne c hc
  · have hnum : (List.replicate 384 (PyVal.float (.finite 0))).all
        isNumeric = true := by
      rw [List.all_eq_true]
      intro x hx
      rw [List.eq_of_mem_replicate hx]
      rfl
    rw [save_embedding_gate _ _ _ _ (by decide) (by decide) (by decide) hnum,
      validate_false_of_all_zero _ (by
        intro x hx
        rw [List.eq_of_mem_replicate hx]
        exact ⟨rfl, rfl⟩)]
  · have hval := validate_true_of e hlen hfin hvar
    refine ⟨hval, ?_⟩
    rw [save_embedding_gate _ _ _ _ (by decide) (by decide) (by decide)
      (by
        rw [List.all_eq_true]
        exact fun x hx => isNumeric_of_isFiniteNum (hfin x hx)), hval]

/-- The numeric values of `vecSpread`. -/
theorem vecSpread_map_numVal :
    vecSpread.map numVal =
      (3840 : ℚ) ::
        (List.range 383).map (fun i : ℕ => ((i : ℚ) + 1) / 1000) := by
  rw [vecSpread, List.map_cons, List.map_map]
  rfl

/-- Witness for C7: the empty vector and the all-zero vector are
rejected; the spread vector passes the gate and the write succeeds. -/
theorem validation_gate_spec_witness :
    validate_embedding [] = false ∧
    save_embedding "u" "s" (List.replicate 384 (PyVal.float (.finite 0))) "p" =
      .ok false ∧
    validate_embedding vecSpread = true ∧
    save_embedding "u" "s" vecSpread "p" = .ok true := by
  have hlen : vecSpread.length = 384 := by
    rw [vecSpread, List.length_cons, List.length_map, List.length_range]
  have hfin : ∀ x ∈ vecSpread, isFiniteNum x = true := by
    intro x hx
    rcases List.mem_cons.1 hx with rfl | hx'
    · rfl
    · obtain ⟨i, -, rfl⟩ := List.mem_map.1 hx'
      rfl
  have htail : ∀ y ∈ (List.range 383).map (fun i : ℕ => ((i : ℚ) + 1) / 1000),
      0 ≤ y ∧ y ≤ 1 := by
    intro y hy
    obtain ⟨i, hi, rfl⟩ := List.mem_map.1 hy
    have hi' : (i : ℚ) < 383 := by exact_mod_cast List.mem_range.1 hi
    constructor
    · positivity
    · rw [div_le_one (by norm_num)]
      linarith
  have hnd : (vecSpread.map numVal).Nodup := by
    rw [vecSpread_map_numVal, List.nodup_cons]
    constructor
    · intro hmem
      obtain ⟨y, hy, -⟩ := List.mem_map.1 hmem
      have h1 := htail _ hmem
      linarith [h1.2]
    · refine List.Nodup.map ?_ (List.nodup_range 383)
      intro a b hab
      field_simp at hab
      exact_mod_cast hab
  have hvar : (1 / 10 ^ 6 : ℚ) ^ 2 < listVariance (vecSpread.map numVal) := by
    rw [vecSpread_map_numVal]
    set T := (List.range 383).map (fun i : ℕ => ((i : ℚ) + 1) / 1000) with hT
    have hTlen : T.length = 383 := by simp [hT]
    have hTsum_le : T.sum ≤ 383 := by
      have h1 := list_sum_le_mul T 1 (fun y hy => (htail y hy).2)
      rw [hTlen] at h1
      norm_num at h1
      linarith
    have hTsum_ge : 0 ≤ T.sum :=
      list_sum_nonneg T (fun y hy => (htail y hy).1)
    set l := (3840 : ℚ) :: T with hl
    have hlsum : l.sum = 3840 + T.sum := by simp [hl]
    have hllen : (l.length : ℚ) = 384 := by simp [hl, hTlen]
    have hmean_le : listMean l ≤ 11 := by
      rw [listMean, hlsum, hllen, div_le_iff₀ (by norm_num)]
      linarith
    have hhead : (3840 - listMean l) ^ 2 ≤
        (l.map (fun q => (q - listMean l) ^ 2)).sum := by
      have hmem : (3840 - listMean l) ^ 2 ∈
          l.map (fun q => (q - listMean l) ^ 2) := by
        rw [hl, List.map_cons]
        exact List.mem_cons_self _ _
      exact List.single_le_sum
        (fun x hx => by
          obtain ⟨y, -, rfl⟩ := List.mem_map.1 hx
          positivity) _ hmem
    have hsq : (3829 : ℚ) ^ 2 ≤ (3840 - listMean l) ^ 2 := by
      have h1 : (3829 : ℚ) ≤ 3840 - listMean l := by linarith
      nlinarith
    rw [listVariance, hllen]
    rw [lt_div_iff₀ (by norm_num)]
    nlinarith
  have h7 := validation_gate_spec.2.2.2.2.2.2 vecSpread hlen hfin hnd hvar
  exact ⟨validation_gate_spec.1 [] (by decide),
    validation_gate_spec.2.2.2.2.2.1, h7.1, h7.2⟩

end EmbedCore
